import Mathlib

/-!
Verification of the BFS traversal engine (src/breadth_first_search.py) and,
modelled from the specification, the Dijkstra shortest-paths engine of the
PyBGL repository.  The Python deque is embedded as a `List` whose head is the
right end of the deque: `deque.pop()` is head removal, `deque.append x` is
`cons`, and `deque.appendleft x` appends at the tail of the list.  Visitor
callbacks are embedded as an event trace accumulated in the state.
-/

namespace PyBGL

/-- Traversal colors: WHITE / GRAY / BLACK of pybgl.graph_traversal. -/
inductive Color where
  | white
  | gray
  | black
deriving DecidableEq, Repr

/-- Rank of a color in the traversal order white < gray < black. -/
def colorRank : Color → Nat
  | Color.white => 0
  | Color.gray => 1
  | Color.black => 2

/-- Vertices are integral handles. -/
abbrev V : Type := Nat

/-- An edge descriptor: ordered (source, target) pair plus an index that
distinguishes parallel edges. -/
structure EdgeDescriptor where
  src : V
  tgt : V
  idx : Nat
deriving DecidableEq, Repr

/-- A graph is a finite list of edge descriptors; adjacency iteration order
is the order of this list. -/
structure Graph where
  edges : List EdgeDescriptor
deriving DecidableEq, Repr

/-- `out_edges(u, g)`: the outgoing edges of `u`, in graph order. -/
def out_edges (u : V) (g : Graph) : List EdgeDescriptor :=
  g.edges.filter (fun e => decide (e.src = u))

/-- `in_edges(v, g)`: the incoming edges of `v`, in graph order. -/
def in_edges (v : V) (g : Graph) : List EdgeDescriptor :=
  g.edges.filter (fun e => decide (e.tgt = v))

/-- `source(e, g)`. -/
def source (e : EdgeDescriptor) (_g : Graph) : V := e.src

/-- `target(e, g)`. -/
def target (e : EdgeDescriptor) (_g : Graph) : V := e.tgt

/-- One event per visitor callback slot of `DefaultBreadthFirstSearchVisitor`. -/
inductive Event where
  | discoverVertex (u : V)
  | examineVertex (u : V)
  | examineEdge (e : EdgeDescriptor)
  | treeEdge (e : EdgeDescriptor)
  | nonTreeEdge (e : EdgeDescriptor)
  | grayTarget (e : EdgeDescriptor)
  | blackTarget (e : EdgeDescriptor)
  | finishVertex (u : V)
deriving DecidableEq, Repr

/-- State of a traversal: the color property map, the work list (head = the
end `deque.pop()` removes from) and the trace of visitor events so far. -/
structure BfsState where
  color : V → Color
  stack : List V
  trace : List Event

/-- Write one entry of the color property map. -/
def setColor (m : V → Color) (v : V) (c : Color) : V → Color :=
  fun x => if x = v then c else m x

/-- Number of events equal to `ev` in a trace. -/
def countEv (ev : Event) (tr : List Event) : Nat :=
  tr.countP (fun x => decide (x = ev))

/-- The body of the inner `for e in _out_edges(u, g)` loop for a single edge:
examine the edge, then classify it by the color of its far endpoint. -/
def examineOne (g : Graph) (ifp : EdgeDescriptor → Graph → Bool)
    (tgtOf : EdgeDescriptor → Graph → V) (e : EdgeDescriptor)
    (st : BfsState) : BfsState :=
  let v := tgtOf e g
  match st.color v with
  | Color.white =>
    let st2 : BfsState :=
      { color := setColor st.color v Color.gray,
        stack := st.stack,
        trace := st.trace ++
          [Event.examineEdge e, Event.treeEdge e, Event.discoverVertex v] }
    if ifp e g then { st2 with stack := st2.stack ++ [v] } else st2
  | Color.gray =>
    { st with trace := st.trace ++ [Event.examineEdge e, Event.grayTarget e] }
  | Color.black =>
    { st with trace := st.trace ++ [Event.examineEdge e, Event.blackTarget e] }

/-- The inner edge loop over a list of edges. -/
def examineEdges (g : Graph) (ifp : EdgeDescriptor → Graph → Bool)
    (tgtOf : EdgeDescriptor → Graph → V) :
    List EdgeDescriptor → BfsState → BfsState
  | [], st => st
  | e :: es, st => examineEdges g ifp tgtOf es (examineOne g ifp tgtOf e st)

/-- One iteration of the `while stack` loop, given that `u` was popped and
`rest` is the remaining work list: examine `u`, process its incident edges,
then blacken and finish `u`. -/
def bfsIter (g : Graph) (ifp : EdgeDescriptor → Graph → Bool)
    (outE : V → Graph → List EdgeDescriptor)
    (tgtOf : EdgeDescriptor → Graph → V) (u : V) (rest : List V)
    (st : BfsState) : BfsState :=
  let st1 : BfsState :=
    { st with stack := rest, trace := st.trace ++ [Event.examineVertex u] }
  let st2 := examineEdges g ifp tgtOf (outE u g) st1
  { st2 with color := setColor st2.color u Color.black,
             trace := st2.trace ++ [Event.finishVertex u] }

/-- One step of the main loop: pop from the head (the deque's right end) when
the work list is non-empty. -/
def bfsStep (g : Graph) (ifp : EdgeDescriptor → Graph → Bool)
    (outE : V → Graph → List EdgeDescriptor)
    (tgtOf : EdgeDescriptor → Graph → V) (st : BfsState) : BfsState :=
  match st.stack with
  | [] => st
  | u :: rest => bfsIter g ifp outE tgtOf u rest st

/-- The fuelled main loop. -/
def bfsLoop (g : Graph) (ifp : EdgeDescriptor → Graph → Bool)
    (outE : V → Graph → List EdgeDescriptor)
    (tgtOf : EdgeDescriptor → Graph → V) : Nat → BfsState → BfsState
  | 0, st => st
  | Nat.succ fuel, st =>
    match st.stack with
    | [] => st
    | u :: rest => bfsLoop g ifp outE tgtOf fuel (bfsIter g ifp outE tgtOf u rest st)

/-- One pass of the initialization loop `for s in sources`: gray the source,
report `discover_vertex`, and `deque.append` it (cons, in our representation). -/
def initStep (st : BfsState) (s : V) : BfsState :=
  { color := setColor st.color s Color.gray,
    stack := s :: st.stack,
    trace := st.trace ++ [Event.discoverVertex s] }

/-- The initialization loop over all sources. -/
def bfsInit (_g : Graph) (sources : List V) (pmap_vcolor : V → Color) : BfsState :=
  sources.foldl initStep { color := pmap_vcolor, stack := [], trace := [] }

/-- All vertices the traversal can ever place on the work list: the sources
and every endpoint of an edge. -/
def vertexUniverse (g : Graph) (sources : List V) : List V :=
  (sources ++ g.edges.map EdgeDescriptor.src ++ g.edges.map EdgeDescriptor.tgt).dedup

/-- Number of white vertices of `U` under color map `c`. -/
def whitesIn (U : List V) (c : V → Color) : Nat :=
  U.countP (fun v => decide (c v = Color.white))

/-- `breadth_first_search_graph(g, sources, pmap_vcolor, vis, if_push, forward)`:
the multi-source traversal engine.  `if_push = none` models the Python default
`None`, replaced by the constant-true filter; `forward` selects outgoing- vs
incoming-edge iteration and the matching far-endpoint function. -/
def breadth_first_search_graph (g : Graph) (sources : List V)
    (pmap_vcolor : V → Color)
    (if_push : Option (EdgeDescriptor → Graph → Bool)) (forward : Bool) :
    BfsState :=
  let oe := if forward then out_edges else in_edges
  let tg := if forward then target else source
  let ifp := if_push.getD (fun _ _ => true)
  let st0 := bfsInit g sources pmap_vcolor
  bfsLoop g ifp oe tg ((vertexUniverse g sources).length + st0.stack.length) st0

/-- `breadth_first_search(s, g, ...)`: the single-source convenience wrapper,
calling the multi-source engine on the singleton source set. -/
def breadth_first_search (s : V) (g : Graph) (pmap_vcolor : V → Color)
    (if_push : Option (EdgeDescriptor → Graph → Bool)) (forward : Bool) :
    BfsState :=
  breadth_first_search_graph g [s] pmap_vcolor if_push forward

/-- The all-unvisited initial color map. -/
def allWhite : V → Color := fun _ => Color.white

/-- Snapshot of the engine's state after `k` iterations of the main loop,
starting from an all-unvisited color map. -/
def bfsSnapshot (g : Graph) (sources : List V)
    (if_push : Option (EdgeDescriptor → Graph → Bool)) (forward : Bool)
    (k : Nat) : BfsState :=
  bfsLoop g (if_push.getD (fun _ _ => true))
    (if forward then out_edges else in_edges)
    (if forward then target else source) k (bfsInit g sources allWhite)

/-- The sequence of vertices reported through `examine_vertex`, in order. -/
def examineSeq (tr : List Event) : List V :=
  tr.filterMap (fun ev =>
    match ev with
    | Event.examineVertex u => some u
    | _ => none)

/-- Decides whether a trace always expands the most recently discovered
pending vertex next: walking the trace, a discovered vertex is placed on top
of a pending pile, and every `examine_vertex` event must examine the top of
that pile. -/
def expandsMostRecent : List Event → List V → Bool
  | [], _ => true
  | Event.discoverVertex v :: tr, pend => expandsMostRecent tr (v :: pend)
  | Event.examineVertex v :: tr, pend =>
    match pend with
    | [] => false
    | w :: pend2 => decide (v = w) && expandsMostRecent tr pend2
  | _ :: tr, pend => expandsMostRecent tr pend

/-- Number of classification callbacks (`tree_edge`, `gray_target`,
`black_target`) received by edge `e` in a trace. -/
def classCount (e : EdgeDescriptor) (tr : List Event) : Nat :=
  countEv (Event.treeEdge e) tr + countEv (Event.grayTarget e) tr +
    countEv (Event.blackTarget e) tr

/-- A diamond-shaped test graph: edges 0→1, 0→2 and 1→3. -/
def gDiamond : Graph := ⟨[⟨0, 1, 0⟩, ⟨0, 2, 1⟩, ⟨1, 3, 2⟩]⟩

/-- The single-step relation of the directed graph: `u` steps to `v` when
some edge goes from `u` to `v`. -/
def bfsRel (g : Graph) (u v : V) : Prop :=
  ∃ e ∈ g.edges, e.src = u ∧ e.tgt = v

/-- Reachability from a source set along directed edges. -/
def bfsReach (g : Graph) (sources : List V) (v : V) : Prop :=
  ∃ s ∈ sources, Relation.ReflTransGen (bfsRel g) s v

/-- Each vertex's number of pending work-list occurrences plus past
`examine_vertex` reports is bounded by 0 while it is unvisited and by 1
afterwards: a vertex enters the work list at most once. -/
def pushBound (st : BfsState) : Prop :=
  ∀ v, st.stack.count v + countEv (Event.examineVertex v) st.trace ≤
    (if st.color v = Color.white then 0 else 1)

/-- Loop-head invariant of the default (forward, unfiltered) traversal from
an all-unvisited start: gray vertices are exactly the work-list entries, the
work list has no duplicates, non-white vertices are reachable, black vertices
have no white out-neighbour, and discover/finish counts match colors. -/
structure BfsInv (g : Graph) (sources : List V) (st : BfsState) : Prop where
  gray_mem : ∀ v, st.color v = Color.gray ↔ v ∈ st.stack
  nodup : st.stack.Nodup
  reach : ∀ v, st.color v ≠ Color.white → bfsReach g sources v
  closed : ∀ e ∈ g.edges, st.color e.src = Color.black → st.color e.tgt ≠ Color.white
  disc : ∀ v, countEv (Event.discoverVertex v) st.trace =
    (if st.color v = Color.white then 0 else 1)
  fin : ∀ v, countEv (Event.finishVertex v) st.trace =
    (if st.color v = Color.black then 1 else 0)

/-- Mid-iteration invariant, while vertex `u` is popped and being examined:
like `BfsInv`, except `u` is gray yet off the work list. -/
structure MidInv (g : Graph) (sources : List V) (u : V) (st : BfsState) : Prop where
  unotin : u ∉ st.stack
  gray_mem : ∀ v, st.color v = Color.gray ↔ (v ∈ st.stack ∨ v = u)
  nodup : st.stack.Nodup
  reach : ∀ v, st.color v ≠ Color.white → bfsReach g sources v
  closed : ∀ e ∈ g.edges, st.color e.src = Color.black → st.color e.tgt ≠ Color.white
  disc : ∀ v, countEv (Event.discoverVertex v) st.trace =
    (if st.color v = Color.white then 0 else 1)
  fin : ∀ v, countEv (Event.finishVertex v) st.trace =
    (if st.color v = Color.black then 1 else 0)

/-- Modelled from the spec: the state of `dijkstra_shortest_paths`, whose
source is not under src/ (only its test suite is). Distances are `Option Nat`
with `none` as the infinite sentinel of the default-value policy; the
predecessor map accumulates per vertex the duplicate-free list of
shortest-path edges; `queue` is the priority structure's content. -/
structure DijkstraState where
  dist : V → Option Nat
  preds : V → List EdgeDescriptor
  queue : List V

/-- Modelled from the spec: one relaxation of edge `e` out of a vertex of
finalized distance `du`. A strictly smaller candidate resets the predecessor
set to the single edge, lowers the distance and (re)inserts the target into
the priority structure; an equal candidate adds `e` to the predecessor set
without altering the distance; a larger one changes nothing. -/
def dijkstra_relax (w : EdgeDescriptor → Nat) (e : EdgeDescriptor) (du : Nat)
    (st : DijkstraState) : DijkstraState :=
  let v := e.tgt
  let cand := du + w e
  match st.dist v with
  | none =>
    { dist := fun x => if x = v then some cand else st.dist x,
      preds := fun x => if x = v then [e] else st.preds x,
      queue := if v ∈ st.queue then st.queue else st.queue ++ [v] }
  | some dv =>
    if cand < dv then
      { dist := fun x => if x = v then some cand else st.dist x,
        preds := fun x => if x = v then [e] else st.preds x,
        queue := if v ∈ st.queue then st.queue else st.queue ++ [v] }
    else if cand = dv then
      { st with preds := fun x => if x = v then
          (if e ∈ st.preds v then st.preds v else st.preds v ++ [e])
        else st.preds x }
    else st

/-- Modelled from the spec: extract a queued vertex of minimum tentative
distance, `none` counting as infinite. -/
def extractMin (dist : V → Option Nat) (q : List V) : Option (V × List V) :=
  match q with
  | [] => none
  | u :: rest =>
    let best := rest.foldl (fun b x =>
      match dist x, dist b with
      | some dx, some db => if dx < db then x else b
      | some _, none => x
      | _, _ => b) u
    some (best, q.erase best)

/-- Modelled from the spec: the fuelled main loop of Dijkstra — extract the
minimum, then relax each outgoing edge. -/
def dijkstraLoop (g : Graph) (w : EdgeDescriptor → Nat) :
    Nat → DijkstraState → DijkstraState
  | 0, st => st
  | Nat.succ fuel, st =>
    match extractMin st.dist st.queue with
    | none => st
    | some (u, rest) =>
      match st.dist u with
      | none => dijkstraLoop g w fuel { st with queue := rest }
      | some du =>
        dijkstraLoop g w fuel
          ((out_edges u g).foldl (fun s e => dijkstra_relax w e du s)
            { st with queue := rest })

/-- Modelled from the spec: `dijkstra_shortest_paths(g, source, weights, ...)`
— the source starts at distance 0, all other vertices implicitly infinite,
and the priority structure is seeded with the source. -/
def dijkstra_shortest_paths (g : Graph) (s : V) (w : EdgeDescriptor → Nat) :
    DijkstraState :=
  dijkstraLoop g w
    ((g.edges.length + 1) * (g.edges.length + (vertexUniverse g [s]).length + 1))
    { dist := fun x => if x = s then some 0 else none,
      preds := fun _ => [], queue := [s] }

/-- The first of two parallel unit-weight edges from 0 to 1. -/
def eP1 : EdgeDescriptor := ⟨0, 1, 0⟩

/-- The second of two parallel unit-weight edges from 0 to 1. -/
def eP2 : EdgeDescriptor := ⟨0, 1, 1⟩

/-- The two-parallel-edge test graph of `test_parallel_edges`. -/
def gParallel : Graph := ⟨[eP1, eP2]⟩

/-- The all-ones weight map. -/
def wOne : EdgeDescriptor → Nat := fun _ => 1

/-- A concrete Dijkstra state used to witness the tie-relaxation rule. -/
def stTie : DijkstraState :=
  ⟨fun x => if x = 1 then some 6 else none, fun _ => [], []⟩

/-! ### Basic lemmas about the embedding -/

theorem colorRank_le_two (c : Color) : colorRank c ≤ 2 := by
  cases c <;> simp [colorRank]

theorem colorRank_eq_two (c : Color) (h : colorRank c = 2) : c = Color.black := by
  cases c <;> simp_all [colorRank]

theorem setColor_same (m : V → Color) (v : V) (c : Color) :
    setColor m v c v = c := by
  simp [setColor]

theorem setColor_other (m : V → Color) (v x : V) (c : Color) (h : x ≠ v) :
    setColor m v c x = m x := by
  simp [setColor, h]

theorem countEv_append (ev : Event) (t1 t2 : List Event) :
    countEv ev (t1 ++ t2) = countEv ev t1 + countEv ev t2 := by
  simp [countEv, List.countP_append]

theorem examineOne_white_push {g : Graph} {ifp : EdgeDescriptor → Graph → Bool}
    {tgtOf : EdgeDescriptor → Graph → V} {e : EdgeDescriptor} {st : BfsState}
    (hc : st.color (tgtOf e g) = Color.white) (hp : ifp e g = true) :
    examineOne g ifp tgtOf e st =
      { color := setColor st.color (tgtOf e g) Color.gray,
        stack := st.stack ++ [tgtOf e g],
        trace := st.trace ++
          [Event.examineEdge e, Event.treeEdge e,
           Event.discoverVertex (tgtOf e g)] } := by
  simp [examineOne, hc, hp]

theorem examineOne_white_skip {g : Graph} {ifp : EdgeDescriptor → Graph → Bool}
    {tgtOf : EdgeDescriptor → Graph → V} {e : EdgeDescriptor} {st : BfsState}
    (hc : st.color (tgtOf e g) = Color.white) (hp : ifp e g = false) :
    examineOne g ifp tgtOf e st =
      { color := setColor st.color (tgtOf e g) Color.gray,
        stack := st.stack,
        trace := st.trace ++
          [Event.examineEdge e, Event.treeEdge e,
           Event.discoverVertex (tgtOf e g)] } := by
  simp [examineOne, hc, hp]

theorem examineOne_gray {g : Graph} {ifp : EdgeDescriptor → Graph → Bool}
    {tgtOf : EdgeDescriptor → Graph → V} {e : EdgeDescriptor} {st : BfsState}
    (hc : st.color (tgtOf e g) = Color.gray) :
    examineOne g ifp tgtOf e st =
      { st with trace := st.trace ++
          [Event.examineEdge e, Event.grayTarget e] } := by
  simp [examineOne, hc]

theorem examineOne_black {g : Graph} {ifp : EdgeDescriptor → Graph → Bool}
    {tgtOf : EdgeDescriptor → Graph → V} {e : EdgeDescriptor} {st : BfsState}
    (hc : st.color (tgtOf e g) = Color.black) :
    examineOne g ifp tgtOf e st =
      { st with trace := st.trace ++
          [Event.examineEdge e, Event.blackTarget e] } := by
  simp [examineOne, hc]

theorem colorRank_le_setColor_gray {m : V → Color} {v : V}
    (hc : m v = Color.white) (x : V) :
    colorRank (m x) ≤ colorRank (setColor m v Color.gray x) := by
  by_cases hx : x = v
  · subst hx; rw [hc]; simp [setColor, colorRank]
  · rw [setColor_other m v x _ hx]

theorem colorRank_le_setColor_black (m : V → Color) (v x : V) :
    colorRank (m x) ≤ colorRank (setColor m v Color.black x) := by
  by_cases hx : x = v
  · subst hx; simp only [setColor_same, colorRank]; exact colorRank_le_two _
  · rw [setColor_other m v x _ hx]

theorem colorRank_le_examineOne (g : Graph) (ifp : EdgeDescriptor → Graph → Bool)
    (tgtOf : EdgeDescriptor → Graph → V) (e : EdgeDescriptor) (st : BfsState)
    (x : V) :
    colorRank (st.color x) ≤ colorRank ((examineOne g ifp tgtOf e st).color x) := by
  cases hc : st.color (tgtOf e g) with
  | white =>
    cases hp : ifp e g with
    | true => rw [examineOne_white_push hc hp]; exact colorRank_le_setColor_gray hc x
    | false => rw [examineOne_white_skip hc hp]; exact colorRank_le_setColor_gray hc x
  | gray => rw [examineOne_gray hc]
  | black => rw [examineOne_black hc]

theorem colorRank_le_examineEdges (g : Graph) (ifp : EdgeDescriptor → Graph → Bool)
    (tgtOf : EdgeDescriptor → Graph → V) (es : List EdgeDescriptor) :
    ∀ (st : BfsState) (x : V),
      colorRank (st.color x) ≤ colorRank ((examineEdges g ifp tgtOf es st).color x) := by
  induction es with
  | nil => intro st x; exact Nat.le_refl _
  | cons e es ih =>
    intro st x
    exact Nat.le_trans (colorRank_le_examineOne g ifp tgtOf e st x)
      (ih (examineOne g ifp tgtOf e st) x)

theorem colorRank_le_bfsIter (g : Graph) (ifp : EdgeDescriptor → Graph → Bool)
    (outE : V → Graph → List EdgeDescriptor)
    (tgtOf : EdgeDescriptor → Graph → V) (u : V) (rest : List V)
    (st : BfsState) (x : V) :
    colorRank (st.color x) ≤ colorRank ((bfsIter g ifp outE tgtOf u rest st).color x) := by
  unfold bfsIter
  refine Nat.le_trans ?_ (colorRank_le_setColor_black _ u x)
  exact colorRank_le_examineEdges g ifp tgtOf (outE u g)
    { st with stack := rest, trace := st.trace ++ [Event.examineVertex u] } x

theorem colorRank_le_bfsStep (g : Graph) (ifp : EdgeDescriptor → Graph → Bool)
    (outE : V → Graph → List EdgeDescriptor)
    (tgtOf : EdgeDescriptor → Graph → V) (st : BfsState) (x : V) :
    colorRank (st.color x) ≤ colorRank ((bfsStep g ifp outE tgtOf st).color x) := by
  unfold bfsStep
  cases h : st.stack with
  | nil => exact Nat.le_refl _
  | cons u rest => exact colorRank_le_bfsIter g ifp outE tgtOf u rest st x

theorem colorRank_le_bfsLoop (g : Graph) (ifp : EdgeDescriptor → Graph → Bool)
    (outE : V → Graph → List EdgeDescriptor)
    (tgtOf : EdgeDescriptor → Graph → V) (n : Nat) :
    ∀ (st : BfsState) (x : V),
      colorRank (st.color x) ≤ colorRank ((bfsLoop g ifp outE tgtOf n st).color x) := by
  induction n with
  | zero => intro st x; exact Nat.le_refl _
  | succ n ih =>
    intro st x
    cases h : st.stack with
    | nil => simp [bfsLoop, h]
    | cons u rest =>
      simp only [bfsLoop, h]
      exact Nat.le_trans (colorRank_le_bfsIter g ifp outE tgtOf u rest st x)
        (ih (bfsIter g ifp outE tgtOf u rest st) x)

theorem bfsLoop_empty (g : Graph) (ifp : EdgeDescriptor → Graph → Bool)
    (outE : V → Graph → List EdgeDescriptor)
    (tgtOf : EdgeDescriptor → Graph → V) (n : Nat) (st : BfsState)
    (h : st.stack = []) : bfsLoop g ifp outE tgtOf n st = st := by
  cases n with
  | zero => rfl
  | succ n => simp [bfsLoop, h]

theorem bfsLoop_succ_last (g : Graph) (ifp : EdgeDescriptor → Graph → Bool)
    (outE : V → Graph → List EdgeDescriptor)
    (tgtOf : EdgeDescriptor → Graph → V) (n : Nat) :
    ∀ st : BfsState,
      bfsLoop g ifp outE tgtOf (n + 1) st =
        bfsStep g ifp outE tgtOf (bfsLoop g ifp outE tgtOf n st) := by
  induction n with
  | zero =>
    intro st
    cases h : st.stack with
    | nil => simp [bfsLoop, bfsStep, h]
    | cons u rest => simp [bfsLoop, bfsStep, h]
  | succ n ih =>
    intro st
    cases h : st.stack with
    | nil =>
      rw [bfsLoop_empty g ifp outE tgtOf _ st h, bfsLoop_empty g ifp outE tgtOf _ st h]
      simp [bfsStep, h]
    | cons u rest =>
      have h1 : bfsLoop g ifp outE tgtOf (n + 1 + 1) st =
          bfsLoop g ifp outE tgtOf (n + 1) (bfsIter g ifp outE tgtOf u rest st) := by
        simp [bfsLoop, h]
      have h2 : bfsLoop g ifp outE tgtOf (n + 1) st =
          bfsLoop g ifp outE tgtOf n (bfsIter g ifp outE tgtOf u rest st) := by
        simp [bfsLoop, h]
      rw [h1, ih, h2]

theorem examineEdges_stack_extend (g : Graph) (ifp : EdgeDescriptor → Graph → Bool)
    (tgtOf : EdgeDescriptor → Graph → V) (es : List EdgeDescriptor) :
    ∀ st : BfsState, ∃ pushed : List V,
      (examineEdges g ifp tgtOf es st).stack = st.stack ++ pushed ∧
        ∀ v ∈ pushed, st.color v = Color.white := by
  induction es with
  | nil => intro st; exact ⟨[], by simp [examineEdges], by simp⟩
  | cons e es ih =>
    intro st
    cases hc : st.color (tgtOf e g) with
    | white =>
      have hwhite : ∀ v, (examineOne g ifp tgtOf e st).color v = Color.white →
          st.color v = Color.white := by
        intro v hv
        by_cases hveq : v = tgtOf e g
        · subst hveq; exact hc
        · cases hp : ifp e g with
          | true =>
            simp only [examineOne_white_push hc hp] at hv
            rwa [setColor_other _ _ _ _ hveq] at hv
          | false =>
            simp only [examineOne_white_skip hc hp] at hv
            rwa [setColor_other _ _ _ _ hveq] at hv
      cases hp : ifp e g with
      | true =>
        obtain ⟨pushed, hstk, hw⟩ := ih (examineOne g ifp tgtOf e st)
        refine ⟨tgtOf e g :: pushed, ?_, ?_⟩
        · simp only [examineEdges]
          rw [hstk]
          simp only [examineOne_white_push hc hp]
          simp
        · intro v hv
          rcases List.mem_cons.mp hv with hv | hv
          · subst hv; exact hc
          · exact hwhite v (hw v hv)
      | false =>
        obtain ⟨pushed, hstk, hw⟩ := ih (examineOne g ifp tgtOf e st)
        refine ⟨pushed, ?_, ?_⟩
        · simp only [examineEdges]
          rw [hstk]
          simp only [examineOne_white_skip hc hp]
        · intro v hv; exact hwhite v (hw v hv)
    | gray =>
      obtain ⟨pushed, hstk, hw⟩ := ih (examineOne g ifp tgtOf e st)
      refine ⟨pushed, ?_, ?_⟩
      · simp only [examineEdges]
        rw [hstk]
        simp only [examineOne_gray hc]
      · intro v hv
        have := hw v hv
        rwa [examineOne_gray hc] at this
    | black =>
      obtain ⟨pushed, hstk, hw⟩ := ih (examineOne g ifp tgtOf e st)
      refine ⟨pushed, ?_, ?_⟩
      · simp only [examineEdges]
        rw [hstk]
        simp only [examineOne_black hc]
      · intro v hv
        have := hw v hv
        rwa [examineOne_black hc] at this

theorem examineEdges_trace_extend (g : Graph) (ifp : EdgeDescriptor → Graph → Bool)
    (tgtOf : EdgeDescriptor → Graph → V) (es : List EdgeDescriptor) :
    ∀ st : BfsState, ∃ tr : List Event,
      (examineEdges g ifp tgtOf es st).trace = st.trace ++ tr := by
  induction es with
  | nil => intro st; exact ⟨[], by simp [examineEdges]⟩
  | cons e es ih =>
    intro st
    obtain ⟨tr, htr⟩ := ih (examineOne g ifp tgtOf e st)
    cases hc : st.color (tgtOf e g) with
    | white =>
      cases hp : ifp e g with
      | true =>
        refine ⟨[Event.examineEdge e, Event.treeEdge e,
          Event.discoverVertex (tgtOf e g)] ++ tr, ?_⟩
        simp only [examineEdges]
        rw [htr]
        simp only [examineOne_white_push hc hp]
        simp
      | false =>
        refine ⟨[Event.examineEdge e, Event.treeEdge e,
          Event.discoverVertex (tgtOf e g)] ++ tr, ?_⟩
        simp only [examineEdges]
        rw [htr]
        simp only [examineOne_white_skip hc hp]
        simp
    | gray =>
      refine ⟨[Event.examineEdge e, Event.grayTarget e] ++ tr, ?_⟩
      simp only [examineEdges]
      rw [htr]
      simp only [examineOne_gray hc]
      simp
    | black =>
      refine ⟨[Event.examineEdge e, Event.blackTarget e] ++ tr, ?_⟩
      simp only [examineEdges]
      rw [htr]
      simp only [examineOne_black hc]
      simp

theorem initFold_eq (l : List V) :
    ∀ st : BfsState,
      l.foldl initStep st =
        { color := fun v => if v ∈ l then Color.gray else st.color v,
          stack := l.reverse ++ st.stack,
          trace := st.trace ++ l.map Event.discoverVertex } := by
  induction l with
  | nil =>
    intro st
    cases st with
    | mk c s t =>
      simp only [List.foldl_nil, List.reverse_nil, List.nil_append,
        List.map_nil, List.append_nil, List.not_mem_nil, if_false]
  | cons a l ih =>
    intro st
    rw [List.foldl_cons, ih]
    simp only [BfsState.mk.injEq]
    refine ⟨?_, ?_, ?_⟩
    · funext v
      by_cases hl : v ∈ l
      · simp [hl]
      · by_cases ha : v = a
        · subst ha; simp [hl, initStep, setColor_same]
        · simp [hl, ha, initStep, setColor_other _ _ _ _ ha]
    · simp [initStep]
    · simp [initStep]

theorem bfsInit_eq (g : Graph) (sources : List V) (pmap_vcolor : V → Color) :
    bfsInit g sources pmap_vcolor =
      { color := fun v => if v ∈ sources then Color.gray else pmap_vcolor v,
        stack := sources.reverse,
        trace := sources.map Event.discoverVertex } := by
  unfold bfsInit
  rw [initFold_eq]
  simp

/-! ### Claims C8, C7, C6 -/

/-- Claim C8: `breadth_first_search(s, g, ...)` performs exactly the same
traversal as `breadth_first_search_graph(g, {s}, ...)` with the same remaining
arguments: the resulting color map, work list and visitor-event trace are
identical. -/
theorem claim_C8 (s : V) (g : Graph) (pmap_vcolor : V → Color)
    (if_push : Option (EdgeDescriptor → Graph → Bool)) (forward : Bool) :
    breadth_first_search s g pmap_vcolor if_push forward =
      breadth_first_search_graph g [s] pmap_vcolor if_push forward := rfl

/-- Claim C7: with `forward = false` the engine runs its loop over `in_edges`
and classifies each edge by its `source` endpoint; with `forward = true` it
runs over `out_edges` and classifies by the `target` endpoint. -/
theorem claim_C7 (g : Graph) (sources : List V) (pmap_vcolor : V → Color)
    (if_push : Option (EdgeDescriptor → Graph → Bool)) :
    breadth_first_search_graph g sources pmap_vcolor if_push false =
      bfsLoop g (if_push.getD (fun _ _ => true)) in_edges source
        ((vertexUniverse g sources).length +
          (bfsInit g sources pmap_vcolor).stack.length)
        (bfsInit g sources pmap_vcolor) ∧
    breadth_first_search_graph g sources pmap_vcolor if_push true =
      bfsLoop g (if_push.getD (fun _ _ => true)) out_edges target
        ((vertexUniverse g sources).length +
          (bfsInit g sources pmap_vcolor).stack.length)
        (bfsInit g sources pmap_vcolor) := ⟨rfl, rfl⟩

/-- Claim C6: when an examined edge `e` has an unvisited far endpoint but the
push filter rejects `e`, the engine still reports `examine_edge(e)` and
`tree_edge(e)`, still grays the endpoint and reports `discover_vertex`; only
the push onto the work list is skipped — the work list is unchanged. -/
theorem claim_C6 (g : Graph) (ifp : EdgeDescriptor → Graph → Bool)
    (tgtOf : EdgeDescriptor → Graph → V) (e : EdgeDescriptor)
    (es : List EdgeDescriptor) (st : BfsState)
    (h1 : st.color (tgtOf e g) = Color.white) (h2 : ifp e g = false) :
    examineEdges g ifp tgtOf (e :: es) st =
      examineEdges g ifp tgtOf es
        { color := setColor st.color (tgtOf e g) Color.gray,
          stack := st.stack,
          trace := st.trace ++
            [Event.examineEdge e, Event.treeEdge e,
             Event.discoverVertex (tgtOf e g)] } := by
  simp only [examineEdges, examineOne_white_skip h1 h2]

/-- Witness for C6 on a one-edge graph with a rejecting filter. -/
theorem claim_C6_witness :
    examineEdges ⟨[⟨0, 1, 0⟩]⟩ (fun _ _ => false) target [⟨0, 1, 0⟩]
        { color := allWhite, stack := [], trace := [] } =
      examineEdges ⟨[⟨0, 1, 0⟩]⟩ (fun _ _ => false) target []
        { color := setColor allWhite (target ⟨0, 1, 0⟩ ⟨[⟨0, 1, 0⟩]⟩) Color.gray,
          stack := [],
          trace := [] ++
            [Event.examineEdge ⟨0, 1, 0⟩, Event.treeEdge ⟨0, 1, 0⟩,
             Event.discoverVertex (target ⟨0, 1, 0⟩ ⟨[⟨0, 1, 0⟩]⟩)] } :=
  claim_C6 ⟨[⟨0, 1, 0⟩]⟩ (fun _ _ => false) target ⟨0, 1, 0⟩ []
    { color := allWhite, stack := [], trace := [] } rfl rfl

/-! ### Claim C4 -/

/-- Claim C4: during a run that starts with every vertex unvisited, each
vertex's color rank (white < gray < black) never decreases from one loop
snapshot to the next, so colors advance monotonically and each transition
happens at most once; and the engine's full run is such a snapshot. -/
theorem claim_C4 (g : Graph) (sources : List V)
    (if_push : Option (EdgeDescriptor → Graph → Bool)) (forward : Bool)
    (k : Nat) (v : V) :
    colorRank ((bfsSnapshot g sources if_push forward k).color v) ≤
      colorRank ((bfsSnapshot g sources if_push forward (k + 1)).color v) ∧
    breadth_first_search_graph g sources allWhite if_push forward =
      bfsSnapshot g sources if_push forward
        ((vertexUniverse g sources).length +
          (bfsInit g sources allWhite).stack.length) := by
  constructor
  · simp only [bfsSnapshot]
    rw [bfsLoop_succ_last]
    exact colorRank_le_bfsStep _ _ _ _ _ v
  · rfl

/-! ### Claim C1 -/

/-- Counterexample to claim C1: on the diamond graph from source 0, the
traversal does not expand the most recently discovered vertex next; its
`examine_vertex` order is the breadth-first level order 0, 1, 2, 3 (a
depth-first-leaning engine would examine 2 right after 0). -/
theorem claim_C1_counterexample :
    expandsMostRecent
        (breadth_first_search_graph gDiamond [0] allWhite none true).trace [] =
        false ∧
      examineSeq
        (breadth_first_search_graph gDiamond [0] allWhite none true).trace =
        [0, 1, 2, 3] := by
  constructor
  · decide
  · decide

/-- Claim C1 as amended: newly discovered vertices are pushed onto the front
of the double-ended work list, but vertices to examine are popped from the
opposite end: in each loop iteration the engine examines the head of the work
list and all newly discovered (previously white) vertices are appended behind
the existing remainder, so the work list is a FIFO queue and the traversal
order is breadth-first, not depth-first-leaning. -/
theorem claim_C1 (g : Graph) (ifp : EdgeDescriptor → Graph → Bool)
    (outE : V → Graph → List EdgeDescriptor)
    (tgtOf : EdgeDescriptor → Graph → V) (fuel : Nat) (st : BfsState)
    (u : V) (rest : List V) (h : st.stack = u :: rest) :
    bfsLoop g ifp outE tgtOf (fuel + 1) st =
      bfsLoop g ifp outE tgtOf fuel (bfsIter g ifp outE tgtOf u rest st) ∧
    (∃ pushed : List V,
      (bfsIter g ifp outE tgtOf u rest st).stack = rest ++ pushed ∧
        ∀ v ∈ pushed, st.color v = Color.white) ∧
    (∃ tr : List Event,
      (bfsIter g ifp outE tgtOf u rest st).trace =
        st.trace ++ Event.examineVertex u :: tr) := by
  refine ⟨by simp [bfsLoop, h], ?_, ?_⟩
  · obtain ⟨pushed, hstk, hw⟩ :=
      examineEdges_stack_extend g ifp tgtOf (outE u g)
        { st with stack := rest, trace := st.trace ++ [Event.examineVertex u] }
    exact ⟨pushed, by simp [bfsIter, hstk], hw⟩
  · obtain ⟨tr, htr⟩ :=
      examineEdges_trace_extend g ifp tgtOf (outE u g)
        { st with stack := rest, trace := st.trace ++ [Event.examineVertex u] }
    refine ⟨(tr ++ [Event.finishVertex u]), ?_⟩
    simp [bfsIter, htr]

/-! ### Claim C10 -/

theorem nonTree_notin_examineOne (g : Graph) (ifp : EdgeDescriptor → Graph → Bool)
    (tgtOf : EdgeDescriptor → Graph → V) (e e0 : EdgeDescriptor) (st : BfsState)
    (h : Event.nonTreeEdge e0 ∉ st.trace) :
    Event.nonTreeEdge e0 ∉ (examineOne g ifp tgtOf e st).trace := by
  cases hc : st.color (tgtOf e g) with
  | white =>
    cases hp : ifp e g with
    | true =>
      rw [examineOne_white_push hc hp]
      intro hmem
      rcases List.mem_append.mp hmem with hm | hm
      · exact h hm
      · simp at hm
    | false =>
      rw [examineOne_white_skip hc hp]
      intro hmem
      rcases List.mem_append.mp hmem with hm | hm
      · exact h hm
      · simp at hm
  | gray =>
    rw [examineOne_gray hc]
    intro hmem
    rcases List.mem_append.mp hmem with hm | hm
    · exact h hm
    · simp at hm
  | black =>
    rw [examineOne_black hc]
    intro hmem
    rcases List.mem_append.mp hmem with hm | hm
    · exact h hm
    · simp at hm

theorem nonTree_notin_examineEdges (g : Graph)
    (ifp : EdgeDescriptor → Graph → Bool) (tgtOf : EdgeDescriptor → Graph → V)
    (es : List EdgeDescriptor) (e0 : EdgeDescriptor) :
    ∀ st : BfsState, Event.nonTreeEdge e0 ∉ st.trace →
      Event.nonTreeEdge e0 ∉ (examineEdges g ifp tgtOf es st).trace := by
  induction es with
  | nil => intro st h; exact h
  | cons e es ih =>
    intro st h
    exact ih (examineOne g ifp tgtOf e st)
      (nonTree_notin_examineOne g ifp tgtOf e e0 st h)

theorem nonTree_notin_bfsIter (g : Graph) (ifp : EdgeDescriptor → Graph → Bool)
    (outE : V → Graph → List EdgeDescriptor)
    (tgtOf : EdgeDescriptor → Graph → V) (u : V) (rest : List V)
    (e0 : EdgeDescriptor) (st : BfsState) (h : Event.nonTreeEdge e0 ∉ st.trace) :
    Event.nonTreeEdge e0 ∉ (bfsIter g ifp outE tgtOf u rest st).trace := by
  unfold bfsIter
  intro hmem
  rcases List.mem_append.mp hmem with hm | hm
  · refine nonTree_notin_examineEdges g ifp tgtOf (outE u g)
      e0 { st with stack := rest, trace := st.trace ++ [Event.examineVertex u] }
      ?_ hm
    intro hmem2
    rcases List.mem_append.mp hmem2 with hm2 | hm2
    · exact h hm2
    · simp at hm2
  · simp at hm

theorem nonTree_notin_bfsLoop (g : Graph) (ifp : EdgeDescriptor → Graph → Bool)
    (outE : V → Graph → List EdgeDescriptor)
    (tgtOf : EdgeDescriptor → Graph → V) (n : Nat) (e0 : EdgeDescriptor) :
    ∀ st : BfsState, Event.nonTreeEdge e0 ∉ st.trace →
      Event.nonTreeEdge e0 ∉ (bfsLoop g ifp outE tgtOf n st).trace := by
  induction n with
  | zero => intro st h; exact h
  | succ n ih =>
    intro st h
    cases hs : st.stack with
    | nil => simpa [bfsLoop, hs] using h
    | cons u rest =>
      simp only [bfsLoop, hs]
      exact ih _ (nonTree_notin_bfsIter g ifp outE tgtOf u rest e0 st h)

/-- Claim C10: the `non_tree_edge` visitor slot is never invoked: on every
input, neither `breadth_first_search_graph` nor `breadth_first_search` ever
emits a `non_tree_edge` event. -/
theorem claim_C10 (g : Graph) (sources : List V) (pmap_vcolor : V → Color)
    (if_push : Option (EdgeDescriptor → Graph → Bool)) (forward : Bool)
    (e : EdgeDescriptor) (s : V) :
    Event.nonTreeEdge e ∉
      (breadth_first_search_graph g sources pmap_vcolor if_push forward).trace ∧
    Event.nonTreeEdge e ∉
      (breadth_first_search s g pmap_vcolor if_push forward).trace := by
  have main : ∀ srcs : List V, Event.nonTreeEdge e ∉
      (breadth_first_search_graph g srcs pmap_vcolor if_push forward).trace := by
    intro srcs
    apply nonTree_notin_bfsLoop
    rw [bfsInit_eq]
    intro hmem
    simp only [List.mem_map] at hmem
    obtain ⟨u, _, hu⟩ := hmem
    exact Event.noConfusion hu
  exact ⟨main sources, main [s]⟩

/-! ### Claim C3 -/

theorem countEv_nil (ev : Event) : countEv ev [] = 0 := rfl

theorem countEv_cons (ev a : Event) (l : List Event) :
    countEv ev (a :: l) = countEv ev l + if a = ev then 1 else 0 := by
  simp [countEv, List.countP_cons]

theorem classCount_append (e : EdgeDescriptor) (t1 t2 : List Event) :
    classCount e (t1 ++ t2) = classCount e t1 + classCount e t2 := by
  simp [classCount, countEv_append]
  omega

theorem countEv_map_discover (l : List V) (ev : Event)
    (h : ∀ u : V, ev ≠ Event.discoverVertex u) :
    countEv ev (l.map Event.discoverVertex) = 0 := by
  induction l with
  | nil => rfl
  | cons a l ih =>
    simp only [List.map_cons, countEv_cons, ih]
    have : Event.discoverVertex a ≠ ev := fun hh => h a hh.symm
    simp [this]

theorem classBalance_examineOne (g : Graph) (ifp : EdgeDescriptor → Graph → Bool)
    (tgtOf : EdgeDescriptor → Graph → V) (e e0 : EdgeDescriptor) (st : BfsState)
    (h : countEv (Event.examineEdge e0) st.trace = classCount e0 st.trace) :
    countEv (Event.examineEdge e0) (examineOne g ifp tgtOf e st).trace =
      classCount e0 (examineOne g ifp tgtOf e st).trace := by
  cases hc : st.color (tgtOf e g) with
  | white =>
    have key : ∀ b : Bool, ∀ L : List Event,
        L = [Event.examineEdge e, Event.treeEdge e,
          Event.discoverVertex (tgtOf e g)] →
        countEv (Event.examineEdge e0) (st.trace ++ L) =
          classCount e0 (st.trace ++ L) := by
      intro _ L hL
      subst hL
      rw [countEv_append, classCount_append, h]
      by_cases he : e = e0
      · subst he
        simp [classCount, countEv_cons, countEv_nil]
      · simp [classCount, countEv_cons, countEv_nil, he]
    cases hp : ifp e g with
    | true => rw [examineOne_white_push hc hp]; exact key true _ rfl
    | false => rw [examineOne_white_skip hc hp]; exact key false _ rfl
  | gray =>
    rw [examineOne_gray hc]
    simp only
    rw [countEv_append, classCount_append, h]
    by_cases he : e = e0
    · subst he
      simp [classCount, countEv_cons, countEv_nil]
    · simp [classCount, countEv_cons, countEv_nil, he]
  | black =>
    rw [examineOne_black hc]
    simp only
    rw [countEv_append, classCount_append, h]
    by_cases he : e = e0
    · subst he
      simp [classCount, countEv_cons, countEv_nil]
    · simp [classCount, countEv_cons, countEv_nil, he]

theorem classBalance_examineEdges (g : Graph)
    (ifp : EdgeDescriptor → Graph → Bool) (tgtOf : EdgeDescriptor → Graph → V)
    (es : List EdgeDescriptor) (e0 : EdgeDescriptor) :
    ∀ st : BfsState,
      countEv (Event.examineEdge e0) st.trace = classCount e0 st.trace →
      countEv (Event.examineEdge e0) (examineEdges g ifp tgtOf es st).trace =
        classCount e0 (examineEdges g ifp tgtOf es st).trace := by
  induction es with
  | nil => intro st h; exact h
  | cons e es ih =>
    intro st h
    exact ih (examineOne g ifp tgtOf e st)
      (classBalance_examineOne g ifp tgtOf e e0 st h)

theorem classBalance_bfsIter (g : Graph) (ifp : EdgeDescriptor → Graph → Bool)
    (outE : V → Graph → List EdgeDescriptor)
    (tgtOf : EdgeDescriptor → Graph → V) (u : V) (rest : List V)
    (e0 : EdgeDescriptor) (st : BfsState)
    (h : countEv (Event.examineEdge e0) st.trace = classCount e0 st.trace) :
    countEv (Event.examineEdge e0) (bfsIter g ifp outE tgtOf u rest st).trace =
      classCount e0 (bfsIter g ifp outE tgtOf u rest st).trace := by
  unfold bfsIter
  simp only
  rw [countEv_append, classCount_append]
  have h1 : countEv (Event.examineEdge e0)
      (st.trace ++ [Event.examineVertex u]) =
      classCount e0 (st.trace ++ [Event.examineVertex u]) := by
    rw [countEv_append, classCount_append, h]
    simp [classCount, countEv_cons, countEv_nil]
  rw [classBalance_examineEdges g ifp tgtOf (outE u g) e0 _ h1]
  simp [classCount, countEv_cons, countEv_nil]

theorem classBalance_bfsLoop (g : Graph) (ifp : EdgeDescriptor → Graph → Bool)
    (outE : V → Graph → List EdgeDescriptor)
    (tgtOf : EdgeDescriptor → Graph → V) (n : Nat) (e0 : EdgeDescriptor) :
    ∀ st : BfsState,
      countEv (Event.examineEdge e0) st.trace = classCount e0 st.trace →
      countEv (Event.examineEdge e0) (bfsLoop g ifp outE tgtOf n st).trace =
        classCount e0 (bfsLoop g ifp outE tgtOf n st).trace := by
  induction n with
  | zero => intro st h; exact h
  | succ n ih =>
    intro st h
    cases hs : st.stack with
    | nil => simpa [bfsLoop, hs] using h
    | cons u rest =>
      simp only [bfsLoop, hs]
      exact ih _ (classBalance_bfsIter g ifp outE tgtOf u rest e0 st h)

/-- Claim C3: for every graph, initial color map and parameters, every edge
receives exactly as many classification callbacks (`tree_edge`, `gray_target`,
`black_target` combined) as `examine_edge` calls: each examined edge is
classified exactly once. -/
theorem claim_C3 (g : Graph) (sources : List V) (pmap_vcolor : V → Color)
    (if_push : Option (EdgeDescriptor → Graph → Bool)) (forward : Bool)
    (e : EdgeDescriptor) :
    countEv (Event.examineEdge e)
        (breadth_first_search_graph g sources pmap_vcolor if_push forward).trace =
      countEv (Event.treeEdge e)
          (breadth_first_search_graph g sources pmap_vcolor if_push forward).trace +
        countEv (Event.grayTarget e)
          (breadth_first_search_graph g sources pmap_vcolor if_push forward).trace +
        countEv (Event.blackTarget e)
          (breadth_first_search_graph g sources pmap_vcolor if_push forward).trace := by
  have hinit : countEv (Event.examineEdge e)
      (bfsInit g sources pmap_vcolor).trace =
      classCount e (bfsInit g sources pmap_vcolor).trace := by
    rw [bfsInit_eq]
    simp only
    have h1 := countEv_map_discover sources (Event.examineEdge e)
      (fun u hh => by simp at hh)
    have h2 := countEv_map_discover sources (Event.treeEdge e)
      (fun u hh => by simp at hh)
    have h3 := countEv_map_discover sources (Event.grayTarget e)
      (fun u hh => by simp at hh)
    have h4 := countEv_map_discover sources (Event.blackTarget e)
      (fun u hh => by simp at hh)
    simp [classCount, h1, h2, h3, h4]
  have := classBalance_bfsLoop g (if_push.getD (fun _ _ => true))
    (if forward then out_edges else in_edges)
    (if forward then target else source)
    ((vertexUniverse g sources).length +
      (bfsInit g sources pmap_vcolor).stack.length) e
    (bfsInit g sources pmap_vcolor) hinit
  simpa [breadth_first_search_graph, classCount] using this

/-! ### Claim C9 -/

theorem whitesIn_mono_le (U : List V) {c c' : V → Color}
    (h : ∀ v, c' v = Color.white → c v = Color.white) :
    whitesIn U c' ≤ whitesIn U c :=
  List.countP_mono_left (fun x _ hx => by
    simp only [decide_eq_true_eq] at hx ⊢
    exact h x hx)

theorem whitesIn_setColor_gray {U : List V} {c : V → Color} {v : V}
    (hU : U.Nodup) (hv : v ∈ U) (hw : c v = Color.white) :
    whitesIn U (setColor c v Color.gray) + 1 = whitesIn U c := by
  induction U with
  | nil => cases hv
  | cons a t ih =>
    rcases List.nodup_cons.mp hU with ⟨ha, ht⟩
    unfold whitesIn at *
    rcases List.mem_cons.mp hv with hva | hvt
    · subst hva
      rw [List.countP_cons, List.countP_cons]
      have h1 : (decide (setColor c v Color.gray v = Color.white)) = false := by
        simp [setColor_same]
      have h2 : (decide (c v = Color.white)) = true := by simp [hw]
      rw [h1, h2]
      have h3 : List.countP (fun x => decide (setColor c v Color.gray x = Color.white)) t =
          List.countP (fun x => decide (c x = Color.white)) t := by
        apply List.countP_congr
        intro x hx
        have hxa : x ≠ v := fun hh => ha (hh ▸ hx)
        rw [setColor_other _ _ _ _ hxa]
      rw [h3]
      simp
    · have hav : a ≠ v := fun hh => ha (hh ▸ hvt)
      rw [List.countP_cons, List.countP_cons]
      have h4 : (decide (setColor c v Color.gray a = Color.white)) =
          (decide (c a = Color.white)) := by
        rw [setColor_other _ _ _ _ hav]
      rw [h4]
      have := ih ht hvt
      omega

theorem whitesIn_setColor_le (U : List V) (c : V → Color) (v : V) (cc : Color)
    (hcc : cc ≠ Color.white) :
    whitesIn U (setColor c v cc) ≤ whitesIn U c :=
  whitesIn_mono_le U (fun x hx => by
    by_cases hxv : x = v
    · subst hxv; rw [setColor_same] at hx; exact absurd hx hcc
    · rwa [setColor_other _ _ _ _ hxv] at hx)

theorem measure_examineOne (g : Graph) (ifp : EdgeDescriptor → Graph → Bool)
    (tgtOf : EdgeDescriptor → Graph → V) (e : EdgeDescriptor) {U : List V}
    (hU : U.Nodup) (hmem : tgtOf e g ∈ U) (st : BfsState) :
    whitesIn U (examineOne g ifp tgtOf e st).color +
        (examineOne g ifp tgtOf e st).stack.length ≤
      whitesIn U st.color + st.stack.length := by
  cases hc : st.color (tgtOf e g) with
  | white =>
    cases hp : ifp e g with
    | true =>
      rw [examineOne_white_push hc hp]
      dsimp only
      have := whitesIn_setColor_gray hU hmem hc
      simp only [List.length_append, List.length_cons, List.length_nil]
      omega
    | false =>
      rw [examineOne_white_skip hc hp]
      dsimp only
      have := whitesIn_setColor_gray hU hmem hc
      omega
  | gray => rw [examineOne_gray hc]
  | black => rw [examineOne_black hc]

theorem measure_examineEdges (g : Graph) (ifp : EdgeDescriptor → Graph → Bool)
    (tgtOf : EdgeDescriptor → Graph → V) (es : List EdgeDescriptor) {U : List V}
    (hU : U.Nodup) (hmem : ∀ e ∈ es, tgtOf e g ∈ U) :
    ∀ st : BfsState,
      whitesIn U (examineEdges g ifp tgtOf es st).color +
          (examineEdges g ifp tgtOf es st).stack.length ≤
        whitesIn U st.color + st.stack.length := by
  induction es with
  | nil => intro st; exact Nat.le_refl _
  | cons e es ih =>
    intro st
    refine Nat.le_trans
      (ih (fun e' he' => hmem e' (List.mem_cons_of_mem e he'))
        (examineOne g ifp tgtOf e st)) ?_
    exact measure_examineOne g ifp tgtOf e hU (hmem e (List.mem_cons_self e es)) st

theorem measure_bfsIter (g : Graph) (ifp : EdgeDescriptor → Graph → Bool)
    (outE : V → Graph → List EdgeDescriptor)
    (tgtOf : EdgeDescriptor → Graph → V) (u : V) (rest : List V) {U : List V}
    (hU : U.Nodup) (hmem : ∀ e ∈ outE u g, tgtOf e g ∈ U) (st : BfsState)
    (h : st.stack = u :: rest) :
    whitesIn U (bfsIter g ifp outE tgtOf u rest st).color +
        (bfsIter g ifp outE tgtOf u rest st).stack.length + 1 ≤
      whitesIn U st.color + st.stack.length := by
  unfold bfsIter
  dsimp only
  have h1 := measure_examineEdges g ifp tgtOf (outE u g) hU hmem
    { st with stack := rest, trace := st.trace ++ [Event.examineVertex u] }
  have h2 := whitesIn_setColor_le U
    (examineEdges g ifp tgtOf (outE u g)
      { st with stack := rest, trace := st.trace ++ [Event.examineVertex u] }).color
    u Color.black (by intro hh; exact Color.noConfusion hh)
  dsimp only at h1
  rw [h]
  simp only [List.length_cons]
  omega

theorem bfsLoop_stack_empty (g : Graph) (ifp : EdgeDescriptor → Graph → Bool)
    (outE : V → Graph → List EdgeDescriptor)
    (tgtOf : EdgeDescriptor → Graph → V) {U : List V} (hU : U.Nodup)
    (hmem : ∀ u : V, ∀ e ∈ outE u g, tgtOf e g ∈ U) :
    ∀ (fuel : Nat) (st : BfsState),
      whitesIn U st.color + st.stack.length ≤ fuel →
      (bfsLoop g ifp outE tgtOf fuel st).stack = [] := by
  intro fuel
  induction fuel with
  | zero =>
    intro st h
    have hlen : st.stack.length = 0 := by omega
    have : st.stack = [] := List.length_eq_zero.mp hlen
    simpa [bfsLoop] using this
  | succ n ih =>
    intro st h
    cases hs : st.stack with
    | nil => simp [bfsLoop, hs]
    | cons u rest =>
      simp only [bfsLoop, hs]
      apply ih
      have hm := measure_bfsIter g ifp outE tgtOf u rest hU (hmem u) st hs
      rw [hs] at h
      simp only [List.length_cons] at h hm
      rw [hs] at hm
      simp only [List.length_cons] at hm
      omega

theorem count_singleton_eq (v : V) : List.count v [v] = 1 := by
  simp

theorem count_singleton_ne (v w : V) (h : w ≠ v) : List.count v [w] = 0 := by
  rw [List.count_cons, List.count_nil]
  simp [h]

theorem pushBound_examineOne (g : Graph) (ifp : EdgeDescriptor → Graph → Bool)
    (tgtOf : EdgeDescriptor → Graph → V) (e : EdgeDescriptor) (st : BfsState)
    (h : pushBound st) : pushBound (examineOne g ifp tgtOf e st) := by
  intro v
  have hb := h v
  cases hc : st.color (tgtOf e g) with
  | white =>
    have hz : countEv (Event.examineVertex v)
        [Event.examineEdge e, Event.treeEdge e,
         Event.discoverVertex (tgtOf e g)] = 0 := by
      simp [countEv_cons, countEv_nil]
    cases hp : ifp e g with
    | true =>
      rw [examineOne_white_push hc hp]
      dsimp only
      rw [countEv_append, hz, List.count_append]
      by_cases hv : v = tgtOf e g
      · rw [hv] at hb ⊢
        rw [hc] at hb
        simp at hb
        rw [setColor_same, count_singleton_eq]
        have hgw : (if Color.gray = Color.white then 0 else 1) = 1 := by simp
        rw [hgw]
        omega
      · rw [setColor_other _ _ _ _ hv,
          count_singleton_ne v (tgtOf e g) (fun hh => hv hh.symm)]
        omega
    | false =>
      rw [examineOne_white_skip hc hp]
      dsimp only
      rw [countEv_append, hz]
      by_cases hv : v = tgtOf e g
      · rw [hv] at hb ⊢
        rw [hc] at hb
        simp at hb
        rw [setColor_same]
        have hgw : (if Color.gray = Color.white then 0 else 1) = 1 := by simp
        rw [hgw]
        omega
      · rw [setColor_other _ _ _ _ hv]
        omega
  | gray =>
    rw [examineOne_gray hc]
    dsimp only
    rw [countEv_append]
    have hz : countEv (Event.examineVertex v)
        [Event.examineEdge e, Event.grayTarget e] = 0 := by
      simp [countEv_cons, countEv_nil]
    rw [hz]
    omega
  | black =>
    rw [examineOne_black hc]
    dsimp only
    rw [countEv_append]
    have hz : countEv (Event.examineVertex v)
        [Event.examineEdge e, Event.blackTarget e] = 0 := by
      simp [countEv_cons, countEv_nil]
    rw [hz]
    omega

theorem pushBound_examineEdges (g : Graph) (ifp : EdgeDescriptor → Graph → Bool)
    (tgtOf : EdgeDescriptor → Graph → V) (es : List EdgeDescriptor) :
    ∀ st : BfsState, pushBound st → pushBound (examineEdges g ifp tgtOf es st) := by
  induction es with
  | nil => intro st h; exact h
  | cons e es ih =>
    intro st h
    exact ih (examineOne g ifp tgtOf e st) (pushBound_examineOne g ifp tgtOf e st h)

theorem pushBound_bfsIter (g : Graph) (ifp : EdgeDescriptor → Graph → Bool)
    (outE : V → Graph → List EdgeDescriptor)
    (tgtOf : EdgeDescriptor → Graph → V) (u : V) (rest : List V) (st : BfsState)
    (hs : st.stack = u :: rest) (h : pushBound st) :
    pushBound (bfsIter g ifp outE tgtOf u rest st) := by
  have h1 : pushBound { st with stack := rest, trace := st.trace ++ [Event.examineVertex u] } := by
    intro v
    dsimp only
    rw [countEv_append]
    have hb := h v
    rw [hs, List.count_cons] at hb
    by_cases hv : v = u
    · rw [hv] at hb ⊢
      simp at hb
      have hone : countEv (Event.examineVertex u) [Event.examineVertex u] = 1 := by
        simp [countEv_cons, countEv_nil]
      rw [hone]
      omega
    · have hne : (u == v) = false := by
        simp only [beq_eq_false_iff_ne, ne_eq]
        exact fun hh => hv hh.symm
      rw [hne] at hb
      simp at hb
      have hzero : countEv (Event.examineVertex v) [Event.examineVertex u] = 0 := by
        simp [countEv_cons, countEv_nil]
        exact fun hh => hv hh.symm
      rw [hzero]
      omega
  have h2 := pushBound_examineEdges g ifp tgtOf (outE u g) _ h1
  intro v
  unfold bfsIter
  dsimp only
  rw [countEv_append]
  have hzf : countEv (Event.examineVertex v) [Event.finishVertex u] = 0 := by
    simp [countEv_cons, countEv_nil]
  rw [hzf]
  have hb := h2 v
  by_cases hv : v = u
  · rw [hv] at hb ⊢
    rw [setColor_same]
    have hbw : (if Color.black = Color.white then 0 else 1) = 1 := by simp
    rw [hbw]
    have hle : (if (examineEdges g ifp tgtOf (outE u g) { st with stack := rest, trace := st.trace ++ [Event.examineVertex u] }).color u = Color.white then 0 else 1) ≤ 1 := by
      split
      · omega
      · omega
    omega
  · rw [setColor_other _ _ _ _ hv]
    omega

theorem pushBound_bfsLoop (g : Graph) (ifp : EdgeDescriptor → Graph → Bool)
    (outE : V → Graph → List EdgeDescriptor)
    (tgtOf : EdgeDescriptor → Graph → V) (n : Nat) :
    ∀ st : BfsState, pushBound st → pushBound (bfsLoop g ifp outE tgtOf n st) := by
  induction n with
  | zero => intro st h; exact h
  | succ n ih =>
    intro st h
    cases hs : st.stack with
    | nil => simpa [bfsLoop, hs] using h
    | cons u rest =>
      simp only [bfsLoop, hs]
      exact ih _ (pushBound_bfsIter g ifp outE tgtOf u rest st hs h)

theorem pushBound_bfsInit (g : Graph) (sources : List V) (h : sources.Nodup) :
    pushBound (bfsInit g sources allWhite) := by
  rw [bfsInit_eq]
  intro v
  dsimp only
  rw [List.count_reverse,
    countEv_map_discover sources _ (fun u hh => Event.noConfusion hh)]
  by_cases hv : v ∈ sources
  · rw [List.count_eq_one_of_mem h hv]
    simp [hv]
  · rw [List.count_eq_zero.mpr hv]
    simp [hv, allWhite]

/-- Claim C9: from an all-unvisited color map and a duplicate-free source
set, the engine terminates with an empty work list, and every vertex is
examined (hence was pushed) at most once. -/
theorem claim_C9 (g : Graph) (sources : List V)
    (if_push : Option (EdgeDescriptor → Graph → Bool)) (forward : Bool)
    (h : sources.Nodup) :
    (breadth_first_search_graph g sources allWhite if_push forward).stack = [] ∧
    ∀ v : V, countEv (Event.examineVertex v)
      (breadth_first_search_graph g sources allWhite if_push forward).trace ≤ 1 := by
  have hrepr : breadth_first_search_graph g sources allWhite if_push forward =
      bfsLoop g (if_push.getD (fun _ _ => true))
        (if forward then out_edges else in_edges)
        (if forward then target else source)
        ((vertexUniverse g sources).length +
          (bfsInit g sources allWhite).stack.length)
        (bfsInit g sources allWhite) := rfl
  have hU : (vertexUniverse g sources).Nodup := List.nodup_dedup _
  have hmem : ∀ u : V, ∀ e ∈ (if forward then out_edges else in_edges) u g,
      (if forward then target else source) e g ∈ vertexUniverse g sources := by
    intro u e he
    cases forward with
    | true =>
      have he2 : e ∈ out_edges u g := he
      show target e g ∈ vertexUniverse g sources
      have hedge : e ∈ g.edges := (List.mem_filter.mp he2).1
      unfold vertexUniverse
      rw [List.mem_dedup]
      refine List.mem_append.mpr (Or.inr ?_)
      exact List.mem_map.mpr ⟨e, hedge, rfl⟩
    | false =>
      have he2 : e ∈ in_edges u g := he
      show source e g ∈ vertexUniverse g sources
      have hedge : e ∈ g.edges := (List.mem_filter.mp he2).1
      unfold vertexUniverse
      rw [List.mem_dedup]
      refine List.mem_append.mpr (Or.inl (List.mem_append.mpr (Or.inr ?_)))
      exact List.mem_map.mpr ⟨e, hedge, rfl⟩
  have hempty : (breadth_first_search_graph g sources allWhite if_push forward).stack = [] := by
    rw [hrepr]
    apply bfsLoop_stack_empty g _ _ _ hU hmem
    have hw : whitesIn (vertexUniverse g sources) (bfsInit g sources allWhite).color ≤
        (vertexUniverse g sources).length := List.countP_le_length _
    omega
  refine ⟨hempty, ?_⟩
  intro v
  have hpb : pushBound (breadth_first_search_graph g sources allWhite if_push forward) := by
    rw [hrepr]
    exact pushBound_bfsLoop g _ _ _ _ _ (pushBound_bfsInit g sources h)
  have hb := hpb v
  rw [hempty] at hb
  simp only [List.count_nil] at hb
  refine Nat.le_trans (Nat.le_trans (by omega) hb) ?_
  by_cases hcol : (breadth_first_search_graph g sources allWhite if_push forward).color v = Color.white
  · simp [hcol]
  · simp [hcol]

/-- Witness for C9 on the diamond graph from source 0. -/
theorem claim_C9_witness :
    (breadth_first_search_graph gDiamond [0] allWhite none true).stack = [] ∧
    countEv (Event.examineVertex 2)
      (breadth_first_search_graph gDiamond [0] allWhite none true).trace ≤ 1 :=
  ⟨(claim_C9 gDiamond [0] none true (by decide)).1,
   (claim_C9 gDiamond [0] none true (by decide)).2 2⟩

/-! ### Claim C2 -/

theorem nonwhite_iff_rank (c : Color) : c ≠ Color.white ↔ 1 ≤ colorRank c := by
  cases c <;> simp [colorRank]

theorem countEv_eq_count (ev : Event) (tr : List Event) :
    countEv ev tr = tr.count ev := by
  rw [List.count_eq_countP]
  apply List.countP_congr
  intro x _
  simp

theorem examineOne_target_nonwhite (g : Graph) (ifp : EdgeDescriptor → Graph → Bool)
    (tgtOf : EdgeDescriptor → Graph → V) (e : EdgeDescriptor) (st : BfsState) :
    (examineOne g ifp tgtOf e st).color (tgtOf e g) ≠ Color.white := by
  cases hc : st.color (tgtOf e g) with
  | white =>
    cases hp : ifp e g with
    | true =>
      rw [examineOne_white_push hc hp]
      dsimp only
      rw [setColor_same]
      simp
    | false =>
      rw [examineOne_white_skip hc hp]
      dsimp only
      rw [setColor_same]
      simp
  | gray =>
    rw [examineOne_gray hc]
    dsimp only
    rw [hc]
    simp
  | black =>
    rw [examineOne_black hc]
    dsimp only
    rw [hc]
    simp

theorem nonwhite_mono_examineEdges (g : Graph) (ifp : EdgeDescriptor → Graph → Bool)
    (tgtOf : EdgeDescriptor → Graph → V) (es : List EdgeDescriptor)
    (st : BfsState) (x : V) (h : st.color x ≠ Color.white) :
    (examineEdges g ifp tgtOf es st).color x ≠ Color.white := by
  rw [nonwhite_iff_rank] at h ⊢
  exact Nat.le_trans h (colorRank_le_examineEdges g ifp tgtOf es st x)

theorem examineEdges_target_nonwhite (g : Graph) (ifp : EdgeDescriptor → Graph → Bool)
    (tgtOf : EdgeDescriptor → Graph → V) (es : List EdgeDescriptor) :
    ∀ st : BfsState, ∀ e ∈ es,
      (examineEdges g ifp tgtOf es st).color (tgtOf e g) ≠ Color.white := by
  induction es with
  | nil =>
    intro st e he
    exact absurd he (List.not_mem_nil e)
  | cons e' es ih =>
    intro st e he
    rcases List.mem_cons.mp he with he1 | he2
    · subst he1
      simp only [examineEdges]
      exact nonwhite_mono_examineEdges g ifp tgtOf es _ _
        (examineOne_target_nonwhite g ifp tgtOf e st)
    · simp only [examineEdges]
      exact ih (examineOne g ifp tgtOf e' st) e he2

theorem midInv_examineOne (g : Graph) (sources : List V) (u : V)
    (e : EdgeDescriptor) (st : BfsState) (he : e ∈ g.edges) (hesrc : e.src = u)
    (inv : MidInv g sources u st) :
    MidInv g sources u (examineOne g (fun _ _ => true) target e st) := by
  have htgt : target e g = e.tgt := rfl
  have hugray : st.color u = Color.gray := (inv.gray_mem u).mpr (Or.inr rfl)
  cases hc : st.color (target e g) with
  | white =>
    rw [examineOne_white_push hc rfl]
    have huv : u ≠ target e g := by
      intro hh
      rw [← hh] at hc
      rw [hugray] at hc
      exact Color.noConfusion hc
    have hvnotin : target e g ∉ st.stack := by
      intro hmem
      have hg := (inv.gray_mem (target e g)).mpr (Or.inl hmem)
      rw [hc] at hg
      exact Color.noConfusion hg
    refine ⟨?_, ?_, ?_, ?_, ?_, ?_, ?_⟩
    · -- u not on the extended work list
      dsimp only
      intro hmem
      rcases List.mem_append.mp hmem with hm | hm
      · exact inv.unotin hm
      · rw [List.mem_singleton] at hm
        exact huv hm
    · -- gray vertices are the work-list entries or u
      intro x
      dsimp only
      by_cases hx : x = target e g
      · rw [hx, setColor_same]
        simp [List.mem_append]
      · rw [setColor_other _ _ _ _ hx, inv.gray_mem x]
        constructor
        · rintro (hm | hm)
          · exact Or.inl (List.mem_append.mpr (Or.inl hm))
          · exact Or.inr hm
        · rintro (hm | hm)
          · rcases List.mem_append.mp hm with h1 | h1
            · exact Or.inl h1
            · rw [List.mem_singleton] at h1
              exact absurd h1 hx
          · exact Or.inr hm
    · -- no duplicates
      dsimp only
      rw [List.nodup_append]
      refine ⟨inv.nodup, List.nodup_singleton _, ?_⟩
      rw [List.disjoint_singleton]
      exact hvnotin
    · -- non-white vertices are reachable
      intro x hx
      dsimp only at hx
      by_cases hxv : x = target e g
      · have hru : bfsReach g sources u := by
          apply inv.reach u
          rw [hugray]
          simp
        obtain ⟨s, hs, hpath⟩ := hru
        exact ⟨s, hs, hpath.tail ⟨e, he, hesrc, (hxv.trans htgt).symm⟩⟩
      · rw [setColor_other _ _ _ _ hxv] at hx
        exact inv.reach x hx
    · -- black vertices have no white out-neighbour
      intro e' he' hsrc
      dsimp only at hsrc ⊢
      by_cases hsv : e'.src = target e g
      · rw [hsv, setColor_same] at hsrc
        exact Color.noConfusion hsrc
      · rw [setColor_other _ _ _ _ hsv] at hsrc
        have hold := inv.closed e' he' hsrc
        by_cases htv : e'.tgt = target e g
        · rw [htv, setColor_same]
          simp
        · rw [setColor_other _ _ _ _ htv]
          exact hold
    · -- discover counts
      intro x
      dsimp only
      rw [countEv_append]
      by_cases hx : x = target e g
      · rw [hx, setColor_same]
        have h0 := inv.disc (target e g)
        rw [hc] at h0
        simp only [if_pos rfl] at h0
        have h1 : countEv (Event.discoverVertex (target e g))
            [Event.examineEdge e, Event.treeEdge e,
             Event.discoverVertex (target e g)] = 1 := by
          simp [countEv_cons, countEv_nil]
        rw [h0, h1]
        simp
      · rw [setColor_other _ _ _ _ hx]
        have h1 : countEv (Event.discoverVertex x)
            [Event.examineEdge e, Event.treeEdge e,
             Event.discoverVertex (target e g)] = 0 := by
          simp [countEv_cons, countEv_nil]
          exact fun hh => hx hh.symm
        rw [h1, inv.disc x]
        omega
    · -- finish counts
      intro x
      dsimp only
      rw [countEv_append]
      have h1 : countEv (Event.finishVertex x)
          [Event.examineEdge e, Event.treeEdge e,
           Event.discoverVertex (target e g)] = 0 := by
        simp [countEv_cons, countEv_nil]
      rw [h1, inv.fin x]
      by_cases hx : x = target e g
      · rw [hx, setColor_same, hx] at *
        rw [hc]
        simp
      · rw [setColor_other _ _ _ _ hx]
        omega
  | gray =>
    rw [examineOne_gray hc]
    refine ⟨inv.unotin, inv.gray_mem, inv.nodup, inv.reach, inv.closed, ?_, ?_⟩
    · intro x
      dsimp only
      rw [countEv_append]
      have h1 : countEv (Event.discoverVertex x)
          [Event.examineEdge e, Event.grayTarget e] = 0 := by
        simp [countEv_cons, countEv_nil]
      rw [h1, inv.disc x]
      omega
    · intro x
      dsimp only
      rw [countEv_append]
      have h1 : countEv (Event.finishVertex x)
          [Event.examineEdge e, Event.grayTarget e] = 0 := by
        simp [countEv_cons, countEv_nil]
      rw [h1, inv.fin x]
      omega
  | black =>
    rw [examineOne_black hc]
    refine ⟨inv.unotin, inv.gray_mem, inv.nodup, inv.reach, inv.closed, ?_, ?_⟩
    · intro x
      dsimp only
      rw [countEv_append]
      have h1 : countEv (Event.discoverVertex x)
          [Event.examineEdge e, Event.blackTarget e] = 0 := by
        simp [countEv_cons, countEv_nil]
      rw [h1, inv.disc x]
      omega
    · intro x
      dsimp only
      rw [countEv_append]
      have h1 : countEv (Event.finishVertex x)
          [Event.examineEdge e, Event.blackTarget e] = 0 := by
        simp [countEv_cons, countEv_nil]
      rw [h1, inv.fin x]
      omega

theorem midInv_examineEdges (g : Graph) (sources : List V) (u : V) :
    ∀ es : List EdgeDescriptor, (∀ e ∈ es, e ∈ g.edges ∧ e.src = u) →
      ∀ st : BfsState, MidInv g sources u st →
        MidInv g sources u (examineEdges g (fun _ _ => true) target es st) := by
  intro es
  induction es with
  | nil => intro _ st inv; exact inv
  | cons e es ih =>
    intro hes st inv
    simp only [examineEdges]
    exact ih (fun e' he' => hes e' (List.mem_cons_of_mem e he')) _
      (midInv_examineOne g sources u e st (hes e (List.mem_cons_self e es)).1
        (hes e (List.mem_cons_self e es)).2 inv)

theorem bfsInv_bfsIter (g : Graph) (sources : List V) (u : V) (rest : List V)
    (st : BfsState) (hs : st.stack = u :: rest) (inv : BfsInv g sources st) :
    BfsInv g sources (bfsIter g (fun _ _ => true) out_edges target u rest st) := by
  have hugray : st.color u = Color.gray := by
    rw [inv.gray_mem u, hs]
    exact List.mem_cons_self u rest
  have hnd := inv.nodup
  rw [hs, List.nodup_cons] at hnd
  have mid1 : MidInv g sources u { st with stack := rest, trace := st.trace ++ [Event.examineVertex u] } := by
    refine ⟨hnd.1, ?_, hnd.2, inv.reach, inv.closed, ?_, ?_⟩
    · intro x
      dsimp only
      rw [inv.gray_mem x, hs, List.mem_cons]
      constructor
      · rintro (h1 | h1)
        · exact Or.inr h1
        · exact Or.inl h1
      · rintro (h1 | h1)
        · exact Or.inr h1
        · exact Or.inl h1
    · intro x
      dsimp only
      rw [countEv_append]
      have h1 : countEv (Event.discoverVertex x) [Event.examineVertex u] = 0 := by
        simp [countEv_cons, countEv_nil]
      rw [h1, inv.disc x]
      omega
    · intro x
      dsimp only
      rw [countEv_append]
      have h1 : countEv (Event.finishVertex x) [Event.examineVertex u] = 0 := by
        simp [countEv_cons, countEv_nil]
      rw [h1, inv.fin x]
      omega
  have mid2 := midInv_examineEdges g sources u (out_edges u g)
    (fun e he => ⟨(List.mem_filter.mp he).1, by
      have h2 := (List.mem_filter.mp he).2
      simpa using h2⟩) _ mid1
  have tgts := examineEdges_target_nonwhite g (fun _ _ => true) target
    (out_edges u g)
    { st with stack := rest, trace := st.trace ++ [Event.examineVertex u] }
  have hg2 := (mid2.gray_mem u).mpr (Or.inr rfl)
  simp only [bfsIter]
  refine ⟨?_, ?_, ?_, ?_, ?_, ?_⟩
  · -- gray vertices are exactly the work-list entries
    intro x
    dsimp only
    by_cases hx : x = u
    · rw [hx, setColor_same]
      constructor
      · intro hgb
        exact Color.noConfusion hgb
      · intro hmem
        exact absurd hmem mid2.unotin
    · rw [setColor_other _ _ _ _ hx, mid2.gray_mem x]
      constructor
      · rintro (h1 | h1)
        · exact h1
        · exact absurd h1 hx
      · intro h1
        exact Or.inl h1
  · dsimp only
    exact mid2.nodup
  · intro x hx
    dsimp only at hx
    by_cases hxu : x = u
    · refine mid2.reach x ?_
      rw [hxu, hg2]
      simp
    · rw [setColor_other _ _ _ _ hxu] at hx
      exact mid2.reach x hx
  · intro e' he' hsrc
    dsimp only at hsrc ⊢
    by_cases hsu : e'.src = u
    · have he'o : e' ∈ out_edges u g := List.mem_filter.mpr ⟨he', by simp [hsu]⟩
      have h2 := tgts e' he'o
      by_cases htu : e'.tgt = u
      · rw [htu, setColor_same]
        simp
      · rw [setColor_other _ _ _ _ htu]
        exact h2
    · rw [setColor_other _ _ _ _ hsu] at hsrc
      have h2 := mid2.closed e' he' hsrc
      by_cases htu : e'.tgt = u
      · rw [htu, setColor_same]
        simp
      · rw [setColor_other _ _ _ _ htu]
        exact h2
  · intro x
    dsimp only
    rw [countEv_append]
    have h1 : countEv (Event.discoverVertex x) [Event.finishVertex u] = 0 := by
      simp [countEv_cons, countEv_nil]
    rw [h1, mid2.disc x]
    by_cases hx : x = u
    · rw [hx, setColor_same, hg2]
      simp
    · rw [setColor_other _ _ _ _ hx]
      omega
  · intro x
    dsimp only
    by_cases hx : x = u
    · rw [hx, countEv_append, setColor_same]
      have h2 := mid2.fin u
      rw [hg2] at h2
      have h3 : countEv (Event.finishVertex u) [Event.finishVertex u] = 1 := by
        simp [countEv_cons, countEv_nil]
      rw [h3]
      simp at h2
      rw [h2]
      simp
    · rw [countEv_append, setColor_other _ _ _ _ hx]
      have h1 : countEv (Event.finishVertex x) [Event.finishVertex u] = 0 := by
        simp [countEv_cons, countEv_nil]
        exact fun hh => hx hh.symm
      rw [h1, mid2.fin x]
      omega

theorem bfsInv_bfsInit (g : Graph) (sources : List V) (h : sources.Nodup) :
    BfsInv g sources (bfsInit g sources allWhite) := by
  rw [bfsInit_eq]
  refine ⟨?_, ?_, ?_, ?_, ?_, ?_⟩
  · intro v
    dsimp only
    rw [List.mem_reverse]
    by_cases hv : v ∈ sources <;> simp [hv, allWhite]
  · dsimp only
    rw [List.nodup_reverse]
    exact h
  · intro v hv
    dsimp only at hv
    by_cases hmem : v ∈ sources
    · exact ⟨v, hmem, Relation.ReflTransGen.refl⟩
    · rw [if_neg hmem] at hv
      exact absurd rfl hv
  · intro e _ hsrc
    dsimp only at hsrc
    by_cases hmem : e.src ∈ sources <;> simp [hmem, allWhite] at hsrc
  · intro v
    dsimp only
    have hcm := List.count_map_of_injective sources Event.discoverVertex
      (fun a b hab => by injection hab) v
    rw [countEv_eq_count, hcm]
    by_cases hv : v ∈ sources
    · rw [List.count_eq_one_of_mem h hv]
      simp [hv]
    · rw [List.count_eq_zero.mpr hv]
      simp [hv, allWhite]
  · intro v
    dsimp only
    rw [countEv_map_discover sources _ (fun u hh => Event.noConfusion hh)]
    by_cases hv : v ∈ sources <;> simp [hv, allWhite]

theorem bfsInv_bfsLoop (g : Graph) (sources : List V) (n : Nat) :
    ∀ st : BfsState, BfsInv g sources st →
      BfsInv g sources (bfsLoop g (fun _ _ => true) out_edges target n st) := by
  induction n with
  | zero => intro st inv; exact inv
  | succ n ih =>
    intro st inv
    cases hs : st.stack with
    | nil =>
      rw [bfsLoop_empty g _ _ _ _ st hs]
      exact inv
    | cons u rest =>
      simp only [bfsLoop, hs]
      exact ih _ (bfsInv_bfsIter g sources u rest st hs inv)

/-- Claim C2: from an all-unvisited color map and a duplicate-free source
set, after the default forward unfiltered run every vertex reachable from a
source ends black with exactly one `discover_vertex` and one `finish_vertex`
event, and every unreachable vertex is still white with no such events. -/
theorem claim_C2 (g : Graph) (sources : List V) (hnd : sources.Nodup) (v : V) :
    (bfsReach g sources v →
      (breadth_first_search_graph g sources allWhite none true).color v = Color.black ∧
      countEv (Event.discoverVertex v)
        (breadth_first_search_graph g sources allWhite none true).trace = 1 ∧
      countEv (Event.finishVertex v)
        (breadth_first_search_graph g sources allWhite none true).trace = 1) ∧
    (¬ bfsReach g sources v →
      (breadth_first_search_graph g sources allWhite none true).color v = Color.white ∧
      countEv (Event.discoverVertex v)
        (breadth_first_search_graph g sources allWhite none true).trace = 0 ∧
      countEv (Event.finishVertex v)
        (breadth_first_search_graph g sources allWhite none true).trace = 0) := by
  have hrepr : breadth_first_search_graph g sources allWhite none true =
      bfsLoop g (fun _ _ => true) out_edges target
        ((vertexUniverse g sources).length +
          (bfsInit g sources allWhite).stack.length)
        (bfsInit g sources allWhite) := rfl
  have hinv : BfsInv g sources
      (breadth_first_search_graph g sources allWhite none true) := by
    rw [hrepr]
    exact bfsInv_bfsLoop g sources _ _ (bfsInv_bfsInit g sources hnd)
  have hempty : (breadth_first_search_graph g sources allWhite none true).stack = [] := by
    rw [hrepr]
    refine @bfsLoop_stack_empty g (fun _ _ => true) out_edges target
      (vertexUniverse g sources) (List.nodup_dedup _) ?_ _ _ ?_
    · intro u e he
      have he2 : e ∈ g.edges := (List.mem_filter.mp he).1
      show target e g ∈ vertexUniverse g sources
      unfold vertexUniverse
      rw [List.mem_dedup]
      exact List.mem_append.mpr (Or.inr (List.mem_map.mpr ⟨e, he2, rfl⟩))
    · have hw : whitesIn (vertexUniverse g sources)
          (bfsInit g sources allWhite).color ≤
          (vertexUniverse g sources).length := List.countP_le_length _
      omega
  have hnogray : ∀ x,
      (breadth_first_search_graph g sources allWhite none true).color x ≠
        Color.gray := by
    intro x hg
    have hmem := (hinv.gray_mem x).mp hg
    rw [hempty] at hmem
    exact absurd hmem (List.not_mem_nil x)
  have hmono : ∀ x,
      colorRank ((bfsInit g sources allWhite).color x) ≤
        colorRank ((breadth_first_search_graph g sources allWhite none true).color x) := by
    intro x
    rw [hrepr]
    exact colorRank_le_bfsLoop g _ _ _ _ _ x
  have hblack_of : ∀ x,
      (breadth_first_search_graph g sources allWhite none true).color x ≠
        Color.white →
      (breadth_first_search_graph g sources allWhite none true).color x =
        Color.black := by
    intro x hw
    cases hcx : (breadth_first_search_graph g sources allWhite none true).color x with
    | white => exact absurd hcx hw
    | gray => exact absurd hcx (hnogray x)
    | black => rfl
  have hreach_black : ∀ x, bfsReach g sources x →
      (breadth_first_search_graph g sources allWhite none true).color x =
        Color.black := by
    rintro x ⟨s, hs, hpath⟩
    induction hpath with
    | refl =>
      apply hblack_of
      rw [nonwhite_iff_rank]
      refine Nat.le_trans ?_ (hmono s)
      rw [bfsInit_eq]
      dsimp only
      rw [if_pos hs]
      simp [colorRank]
    | tail hp hrel ih =>
      obtain ⟨e, he, hsrc, htgt⟩ := hrel
      apply hblack_of
      have hcl := hinv.closed e he (by rw [hsrc]; exact ih)
      rw [htgt] at hcl
      exact hcl
  refine ⟨?_, ?_⟩
  · intro hr
    have hb := hreach_black v hr
    refine ⟨hb, ?_, ?_⟩
    · have hd := hinv.disc v
      rw [hb] at hd
      simpa using hd
    · have hf := hinv.fin v
      rw [hb] at hf
      simpa using hf
  · intro hnr
    have hw : (breadth_first_search_graph g sources allWhite none true).color v =
        Color.white := by
      by_contra hc
      exact hnr (hinv.reach v hc)
    refine ⟨hw, ?_, ?_⟩
    · have hd := hinv.disc v
      rw [hw] at hd
      simpa using hd
    · have hf := hinv.fin v
      rw [hw] at hf
      simpa using hf

/-- Witness for C2 on the diamond graph: vertex 1 is reachable from source 0
and ends black with one discover and one finish event. -/
theorem claim_C2_witness :
    (breadth_first_search_graph gDiamond [0] allWhite none true).color 1 =
      Color.black ∧
    countEv (Event.discoverVertex 1)
      (breadth_first_search_graph gDiamond [0] allWhite none true).trace = 1 ∧
    countEv (Event.finishVertex 1)
      (breadth_first_search_graph gDiamond [0] allWhite none true).trace = 1 :=
  (claim_C2 gDiamond [0] (by decide) 1).1
    ⟨0, by decide, Relation.ReflTransGen.single ⟨⟨0, 1, 0⟩, by decide, rfl, rfl⟩⟩

/-! ### Claim C5 -/

/-- Claim C5 (spec-modelled): with two parallel unit-weight edges from 0 to
1, Dijkstra from 0 retains both tied edges in the predecessor entry of vertex
1 and yields distances 0 and 1; in general, a relaxation whose candidate
equals the current distance of the edge's target adds the edge to that
target's predecessor set and alters no distance. -/
theorem claim_C5 (w' : EdgeDescriptor → Nat) (st : DijkstraState)
    (e : EdgeDescriptor) (du dv : Nat)
    (h1 : st.dist e.tgt = some dv) (h2 : du + w' e = dv) :
    ((dijkstra_shortest_paths gParallel 0 wOne).preds 1 = [eP1, eP2] ∧
     (dijkstra_shortest_paths gParallel 0 wOne).dist 0 = some 0 ∧
     (dijkstra_shortest_paths gParallel 0 wOne).dist 1 = some 1) ∧
    ((dijkstra_relax w' e du st).dist = st.dist ∧
     (dijkstra_relax w' e du st).preds e.tgt =
       (if e ∈ st.preds e.tgt then st.preds e.tgt
        else st.preds e.tgt ++ [e])) := by
  refine ⟨⟨by decide, by decide, by decide⟩, ?_⟩
  simp only [dijkstra_relax, h1, h2]
  simp

/-- Witness for C5: the concrete run, plus the tie rule applied at an
explicit state whose target distance equals the candidate. -/
theorem claim_C5_witness :
    ((dijkstra_shortest_paths gParallel 0 wOne).preds 1 = [eP1, eP2] ∧
     (dijkstra_shortest_paths gParallel 0 wOne).dist 0 = some 0 ∧
     (dijkstra_shortest_paths gParallel 0 wOne).dist 1 = some 1) ∧
    ((dijkstra_relax wOne eP1 5 stTie).dist = stTie.dist ∧
     (dijkstra_relax wOne eP1 5 stTie).preds eP1.tgt =
       (if eP1 ∈ stTie.preds eP1.tgt then stTie.preds eP1.tgt
        else stTie.preds eP1.tgt ++ [eP1])) :=
  claim_C5 wOne stTie eP1 5 6 (by decide) (by decide)

/-- Witness for the amended C1 at a concrete state. -/
theorem claim_C1_witness :
    bfsLoop gDiamond (fun _ _ => true) out_edges target 1
        { color := allWhite, stack := [0], trace := [] } =
      bfsLoop gDiamond (fun _ _ => true) out_edges target 0
        (bfsIter gDiamond (fun _ _ => true) out_edges target 0 []
          { color := allWhite, stack := [0], trace := [] }) ∧
    (∃ pushed : List V,
      (bfsIter gDiamond (fun _ _ => true) out_edges target 0 []
          { color := allWhite, stack := [0], trace := [] }).stack =
        [] ++ pushed ∧
        ∀ v ∈ pushed, allWhite v = Color.white) ∧
    (∃ tr : List Event,
      (bfsIter gDiamond (fun _ _ => true) out_edges target 0 []
          { color := allWhite, stack := [0], trace := [] }).trace =
        [] ++ Event.examineVertex 0 :: tr) :=
  claim_C1 gDiamond (fun _ _ => true) out_edges target 0
    { color := allWhite, stack := [0], trace := [] } 0 [] rfl

end PyBGL
